import Mathlib

/-!
The extraction and normalisation pipeline of command-bot.

A shallow embedding of the pure part of `main.go`: `extractJSON`,
`isGenericAction`, `inferDepartment`, `cleanAnalysis` and the tail of
`getCommandAnalysis` that runs after the HTTP round trip.

Modelling conventions.

* A Go `string` is modelled as the list of its runes (`GoString`).  The
  strings handled here come out of `json.Unmarshal` or are compared against
  ASCII literals only, so byte offsets returned by `strings.Index` always fall
  on rune boundaries; offsets are counted in list positions.
* A Go run-time panic (slice bounds out of range) is modelled by `none`.
* `map[string]interface{}` is an association list; `interface{}` values
  produced by `json.Unmarshal` are the constructors of `Value`.
-/

namespace CommandBot

/-- A Go string, as its sequence of runes. -/
abbrev GoString := List Char

/-! ## The parts of package `strings` that `main.go` calls -/

/-- Go's `strings.HasPrefix(s, p)`. -/
def HasPrefix : GoString → GoString → Bool
  | _, [] => true
  | [], _ :: _ => false
  | c :: cs, p :: ps => c == p && HasPrefix cs ps

/-- Go's `strings.Index(s, substr)`: the offset of the first occurrence of `substr`
in `s`, or `-1`. -/
def Index : GoString → GoString → Int
  | [], substr => if substr.isEmpty then 0 else -1
  | c :: cs, substr =>
    if HasPrefix (c :: cs) substr then 0
    else if Index cs substr = -1 then -1 else Index cs substr + 1

/-- Go's `strings.LastIndex(s, substr)`: the offset of the last occurrence of
`substr` in `s`, or `-1`. -/
def LastIndex : GoString → GoString → Int
  | [], substr => if substr.isEmpty then 0 else -1
  | c :: cs, substr =>
    if LastIndex cs substr = -1 then
      (if HasPrefix (c :: cs) substr then 0 else -1)
    else LastIndex cs substr + 1

/-- Go's `strings.Contains(s, substr)`, which Go defines as `Index(s, substr) >= 0`. -/
def Contains (s substr : GoString) : Bool :=
  decide (0 ≤ Index s substr)

/-- Go's `unicode.IsSpace`: the runes with the Unicode White_Space property. -/
def isSpace (c : Char) : Bool :=
  let n := c.toNat
  (9 ≤ n && n ≤ 13) || n == 0x20 || n == 0x85 || n == 0xA0 || n == 0x1680 ||
  (0x2000 ≤ n && n ≤ 0x200A) || n == 0x2028 || n == 0x2029 || n == 0x202F ||
  n == 0x205F || n == 0x3000

/-- Go's `strings.TrimSpace(s)`: leading and trailing white space removed. -/
def TrimSpace (s : GoString) : GoString :=
  ((s.dropWhile isSpace).reverse.dropWhile isSpace).reverse

/-- Go's `strings.TrimPrefix(s, p)`: `s` without the leading `p`, or `s` itself. -/
def TrimPrefix (s p : GoString) : GoString :=
  if HasPrefix s p then s.drop p.length else s

/-- Go's `unicode.ToLower` as far as ASCII output is concerned: `A`..`Z` go to
`a`..`z`, and the only two non-ASCII runes whose lower case is an ASCII letter
(U+0130 to `i`, U+212A to `k`) are mapped as Go maps them.  Every other rune
is mapped by Go to a non-ASCII rune; it is left in place here, which no test
against an ASCII keyword can tell apart. -/
def toLowerRune (c : Char) : Char :=
  if 65 ≤ c.toNat ∧ c.toNat ≤ 90 then Char.ofNat (c.toNat + 32)
  else if c.toNat = 0x130 then Char.ofNat 105
  else if c.toNat = 0x212A then Char.ofNat 107
  else c

/-- Go's `strings.ToLower(s)`, rune by rune. -/
def ToLower (s : GoString) : GoString :=
  s.map toLowerRune

/-- The Go slice expression `s[lo:hi]`; `none` is the run-time panic
"slice bounds out of range". -/
def slice (s : GoString) (lo hi : Int) : Option GoString :=
  if 0 ≤ lo ∧ lo ≤ hi ∧ hi ≤ (s.length : Int) then
    some ((s.drop lo.toNat).take (hi.toNat - lo.toNat))
  else none

/-! ## `main.go` -/

/-- A value of type `interface{}` as `json.Unmarshal` builds it. -/
inductive Value where
  | null : Value
  | bool (b : Bool) : Value
  | number (float64bits : Nat) : Value
  | str (s : GoString) : Value
  | array (items : List Value) : Value
  | object (fields : List (GoString × Value)) : Value

/-- A Go `map[string]interface{}`. -/
abbrev GoMap := List (GoString × Value)

/-- The map read `m[key]` in its two-result form. -/
def mapGet : GoMap → GoString → Option Value
  | [], _ => none
  | (k, v) :: rest, key => if k = key then some v else mapGet rest key

/-- The map write `m[key] = v`. -/
def mapSet : GoMap → GoString → Value → GoMap
  | [], key, v => [(key, v)]
  | (k, w) :: rest, key, v =>
    if k = key then (k, v) :: rest else (k, w) :: mapSet rest key v

/-- The struct `AnalysisResult`. -/
structure AnalysisResult where
  Instructions : List GoString
  Actions : List GoString
  ResolvedEntities : GoMap

/-- The literal `genericTerms` of `isGenericAction`. -/
def genericTerms : List GoString :=
  ["have".toList, "want".toList, "tell".toList, "need".toList, "you to".toList]

/-- Function `isGenericAction`: the loop returns `true` at the first term contained in
the action. -/
def isGenericAction (action : GoString) : Bool :=
  genericTerms.any (fun term => Contains action term)

/-- Function `inferDepartment`: a `switch` whose cases are tried in order on the
lowercased input. -/
def inferDepartment (input : GoString) : GoString :=
  let lowerInput := ToLower input
  if Contains lowerInput "selling".toList || Contains lowerInput "sales".toList then
    "Sales".toList
  else if Contains lowerInput "market".toList then
    "Marketing".toList
  else if Contains lowerInput "engineer".toList || Contains lowerInput "technical".toList then
    "Engineering".toList
  else if Contains lowerInput "finance".toList || Contains lowerInput "accounting".toList then
    "Finance".toList
  else if Contains lowerInput "customer".toList then
    "Customer Support".toList
  else
    []

/-- Function `extractJSON`; `none` when the slice expression
`text[jsonStart : jsonEnd+1]` panics. -/
def extractJSON (text : GoString) : Option GoString :=
  let jsonStart := Index text ['{']
  let jsonEnd := LastIndex text ['}']
  if jsonStart = -1 ∨ jsonEnd = -1 then some []
  else
    match slice text jsonStart (jsonEnd + 1) with
    | none => none
    | some raw =>
      let jsonStr := TrimSpace raw
      let jsonStr := TrimPrefix jsonStr "```json".toList
      let jsonStr := TrimPrefix jsonStr "```".toList
      some (TrimSpace jsonStr)

/-- The state of the action loop of `cleanAnalysis`: the slice
`cleanedActions` and the map `actionSet`. -/
structure ActionLoop where
  cleanedActions : List GoString
  actionSet : List (GoString × Bool)

/-- The read `actionSet[action]`: the stored flag, `false` for an absent key. -/
def setGet : List (GoString × Bool) → GoString → Bool
  | [], _ => false
  | (k, b) :: rest, key => if k = key then b else setGet rest key

/-- The write `actionSet[action] = b`. -/
def setPut : List (GoString × Bool) → GoString → Bool → List (GoString × Bool)
  | [], key, b => [(key, b)]
  | (k, c) :: rest, key, b =>
    if k = key then (k, b) :: rest else (k, c) :: setPut rest key b

/-- One iteration of the action loop. -/
def actionStep (st : ActionLoop) (action : GoString) : ActionLoop :=
  if !isGenericAction action && !setGet st.actionSet action then
    { cleanedActions := st.cleanedActions ++ [action],
      actionSet := setPut st.actionSet action true }
  else st

/-- The condition of the `if` in the entity loop of `cleanAnalysis`:
`!ok || dept == "" || strings.Contains(dept, "unspecified")`, where
`dept, ok := entityMap["department"].(string)`. -/
def needsDepartment (entityMap : GoMap) : Bool :=
  match mapGet entityMap "department".toList with
  | some (Value.str dept) => dept == [] || Contains dept "unspecified".toList
  | _ => true

/-- The body of the entity loop of `cleanAnalysis` for one map value
`details`: a value that is not a map is passed over. -/
def cleanEntity (input : GoString) (details : Value) : Value :=
  match details with
  | Value.object entityMap =>
    if needsDepartment entityMap then
      let inferredDept := inferDepartment input
      if inferredDept ≠ [] then
        Value.object (mapSet entityMap "department".toList (Value.str inferredDept))
      else Value.object entityMap
    else Value.object entityMap
  | other => other

/-- Function `cleanAnalysis`.  The entity maps that `json.Unmarshal` builds are
distinct objects, so the in-place writes of the entity loop are independent of
one another and of the (unspecified) iteration order of the Go map: the loop
is a map over the entries. -/
def cleanAnalysis (analysis : AnalysisResult) (input : GoString) : AnalysisResult :=
  let instructions :=
    match analysis.Instructions with
    | [] => analysis.Instructions
    | first :: _ => [first]
  let loop := analysis.Actions.foldl actionStep { cleanedActions := [], actionSet := [] }
  let cleanedActions :=
    if loop.cleanedActions.length > 2 then loop.cleanedActions.take 2
    else loop.cleanedActions
  { Instructions := instructions,
    Actions := cleanedActions,
    ResolvedEntities := analysis.ResolvedEntities.map
      (fun entry => (entry.1, cleanEntity input entry.2)) }

/-- What follows the HTTP round trip in `getCommandAnalysis`, applied to the
`response` field of the decoded envelope.  `unmarshal` stands for
`json.Unmarshal` into an `AnalysisResult`; `none` is a panic, `Except.error`
a returned error. -/
def getCommandAnalysis (unmarshal : GoString → Except GoString AnalysisResult)
    (response input : GoString) : Option (Except GoString AnalysisResult) :=
  match extractJSON response with
  | none => none
  | some jsonStr =>
    if jsonStr = [] then
      some (Except.error "no valid JSON found in response".toList)
    else
      match unmarshal jsonStr with
      | Except.error err =>
        some (Except.error ("failed to parse analysis: ".toList ++ err ++
          "\nResponse was: ".toList ++ response))
      | Except.ok analysis => some (Except.ok (cleanAnalysis analysis input))

/-- Function `getStringValue`: the string stored under `key`, or `defaultValue` when the
key is absent or holds something else. -/
def getStringValue (m : GoMap) (key defaultValue : GoString) : GoString :=
  match mapGet m key with
  | some (Value.str s) => s
  | _ => defaultValue

/-! ## The specification's wording, for comparison with the code -/

/-- The action scan as the specification words it: go through the actions in
order and keep one iff it is not generic and is not equal to an action already
kept. `kept` holds the actions kept so far, oldest first. -/
def keepScan (kept : List GoString) : List GoString → List GoString
  | [] => kept
  | x :: xs =>
    if isGenericAction x = false ∧ x ∉ kept then keepScan (kept ++ [x]) xs
    else keepScan kept xs

/-- The specification's condition for a back-fill: the department is missing,
is not a string, is the empty string, or contains "unspecified". -/
def departmentBlank (m : GoMap) : Prop :=
  mapGet m "department".toList = none ∨
  (∃ v, mapGet m "department".toList = some v ∧ ∀ s, v ≠ Value.str s) ∨
  mapGet m "department".toList = some (Value.str []) ∨
  (∃ s, mapGet m "department".toList = some (Value.str s) ∧ "unspecified".toList <:+: s)

/-- The specification's ordered rule table: keywords and the department they
stand for. -/
def departmentRules : List (List GoString × GoString) :=
  [(["selling".toList, "sales".toList], "Sales".toList),
   (["market".toList], "Marketing".toList),
   (["engineer".toList, "technical".toList], "Engineering".toList),
   (["finance".toList, "accounting".toList], "Finance".toList),
   (["customer".toList], "Customer Support".toList)]

/-- First match wins: the department of the first rule one of whose keywords
occurs in `lowered`, the empty string when no rule matches. -/
def firstMatch : List (List GoString × GoString) → GoString → GoString
  | [], _ => []
  | (keywords, dept) :: rest, lowered =>
    if ∃ kw ∈ keywords, kw <:+: lowered then dept else firstMatch rest lowered

/-! ## Facts about the string primitives -/

theorem HasPrefix_iff (s p : GoString) : HasPrefix s p = true ↔ p <+: s := by
  induction s generalizing p with
  | nil => cases p <;> simp [HasPrefix]
  | cons c cs ih =>
    cases p with
    | nil => simp [HasPrefix]
    | cons q qs =>
      simp only [HasPrefix, Bool.and_eq_true, beq_iff_eq, ih, List.cons_prefix_cons]
      constructor
      · rintro ⟨h1, h2⟩
        exact ⟨h1.symm, h2⟩
      · rintro ⟨h1, h2⟩
        exact ⟨h1.symm, h2⟩

theorem Index_ge_neg_one (s substr : GoString) : Index s substr = -1 ∨ 0 ≤ Index s substr := by
  induction s with
  | nil =>
    unfold Index
    split <;> simp
  | cons c cs ih =>
    unfold Index
    split
    · right; exact le_refl _
    · split
      · left; rfl
      · right
        rcases ih with h | h
        · contradiction
        · omega

theorem Index_nonneg_iff (s substr : GoString) : 0 ≤ Index s substr ↔ substr <:+: s := by
  induction s with
  | nil =>
    unfold Index
    cases substr <;> simp
  | cons c cs ih =>
    unfold Index
    rw [List.infix_cons_iff, ← HasPrefix_iff, ← ih]
    split
    · simp_all
    · split
      · simp_all
      · rcases Index_ge_neg_one cs substr with h | h
        · contradiction
        · simp_all
          omega

theorem Contains_iff (s substr : GoString) : Contains s substr = true ↔ substr <:+: s := by
  simp [Contains, Index_nonneg_iff]

theorem Index_char_append (c : Char) (pre rest : GoString) (h : c ∉ pre) :
    Index (pre ++ c :: rest) [c] = (pre.length : Int) := by
  induction pre with
  | nil => simp [Index, HasPrefix]
  | cons d ds ih =>
    have hd : d ≠ c := fun e => h (by simp [e])
    have hds : c ∉ ds := fun e => h (by simp [e])
    have ih2 := ih hds
    simp only [List.cons_append, Index, HasPrefix, ih2]
    simp [hd]
    omega

theorem Index_char_not_mem (c : Char) (s : GoString) (h : c ∉ s) : Index s [c] = -1 := by
  induction s with
  | nil => simp [Index]
  | cons d ds ih =>
    have hd : d ≠ c := fun e => h (by simp [e])
    have hds : c ∉ ds := fun e => h (by simp [e])
    simp [Index, HasPrefix, ih hds, hd]

theorem LastIndex_char_not_mem (c : Char) (s : GoString) (h : c ∉ s) :
    LastIndex s [c] = -1 := by
  induction s with
  | nil => simp [LastIndex]
  | cons d ds ih =>
    have hd : d ≠ c := fun e => h (by simp [e])
    have hds : c ∉ ds := fun e => h (by simp [e])
    simp [LastIndex, HasPrefix, ih hds, hd]

theorem LastIndex_char_append (c : Char) (pre post : GoString) (h : c ∉ post) :
    LastIndex (pre ++ c :: post) [c] = (pre.length : Int) := by
  induction pre with
  | nil => simp [LastIndex, HasPrefix, LastIndex_char_not_mem c post h]
  | cons d ds ih =>
    simp only [List.cons_append, LastIndex, ih]
    simp
    omega

theorem split_first (c : Char) (s : GoString) (h : c ∈ s) :
    ∃ pre rest, s = pre ++ c :: rest ∧ c ∉ pre := by
  induction s with
  | nil => simp at h
  | cons d ds ih =>
    by_cases hd : d = c
    · exact ⟨[], ds, by simp [hd], by simp⟩
    · have hds : c ∈ ds := by
        rcases List.mem_cons.1 h with e | e
        · exact absurd e.symm hd
        · exact e
      obtain ⟨pre, rest, e, hp⟩ := ih hds
      refine ⟨d :: pre, rest, by simp [e], ?_⟩
      intro hm
      rcases List.mem_cons.1 hm with e2 | e2
      · exact hd e2.symm
      · exact hp e2

theorem split_last (c : Char) (s : GoString) (h : c ∈ s) :
    ∃ pre post, s = pre ++ c :: post ∧ c ∉ post := by
  induction s with
  | nil => simp at h
  | cons d ds ih =>
    by_cases hds : c ∈ ds
    · obtain ⟨pre, post, e, hp⟩ := ih hds
      exact ⟨d :: pre, post, by simp [e], hp⟩
    · have hd : d = c := by
        rcases List.mem_cons.1 h with e | e
        · exact e.symm
        · exact absurd e hds
      exact ⟨[], ds, by simp [hd], hds⟩

theorem Index_char_eq_neg_one_iff (c : Char) (s : GoString) : Index s [c] = -1 ↔ c ∉ s := by
  constructor
  · intro h hm
    obtain ⟨pre, rest, e, hp⟩ := split_first c s hm
    rw [e, Index_char_append c pre rest hp] at h
    omega
  · exact Index_char_not_mem c s

theorem LastIndex_char_eq_neg_one_iff (c : Char) (s : GoString) :
    LastIndex s [c] = -1 ↔ c ∉ s := by
  constructor
  · intro h hm
    obtain ⟨pre, post, e, hp⟩ := split_last c s hm
    rw [e, LastIndex_char_append c pre post hp] at h
    omega
  · exact LastIndex_char_not_mem c s

/-! ## Facts about `extractJSON` -/

theorem TrimSpace_braces (mid : GoString) :
    TrimSpace ('{' :: (mid ++ ['}'])) = '{' :: (mid ++ ['}']) := by
  have h1 : isSpace '{' = false := by decide
  have h2 : isSpace '}' = false := by decide
  simp [TrimSpace, List.dropWhile_cons, h1, h2]

theorem TrimPrefix_brace (rest p : GoString) (hp : p.head? = some (Char.ofNat 96)) :
    TrimPrefix ('{' :: rest) p = '{' :: rest := by
  cases p with
  | nil => simp at hp
  | cons q qs =>
    simp only [List.head?_cons, Option.some.injEq] at hp
    subst hp
    have : ('{' == Char.ofNat 96) = false := by decide
    simp [TrimPrefix, HasPrefix, this]

theorem slice_middle (pre mid post : GoString) :
    slice (pre ++ mid ++ post) (pre.length : Int) ((pre.length : Int) + (mid.length : Int))
      = some mid := by
  unfold slice
  rw [if_pos]
  · have e : ((pre.length : Int) + (mid.length : Int)).toNat - (pre.length : Int).toNat
        = mid.length := by omega
    rw [e]
    simp [List.append_assoc]
  · simp only [List.length_append, Nat.cast_add]
    omega

theorem extractJSON_sandwich (pre mid post : GoString)
    (hpre : '{' ∉ pre) (hpost : '}' ∉ post) :
    extractJSON (pre ++ '{' :: (mid ++ '}' :: post)) = some ('{' :: (mid ++ ['}'])) := by
  have hI : Index (pre ++ '{' :: (mid ++ '}' :: post)) ['{'] = (pre.length : Int) :=
    Index_char_append '{' pre _ hpre
  have hL : LastIndex (pre ++ '{' :: (mid ++ '}' :: post)) ['}']
      = ((pre ++ '{' :: mid).length : Int) := by
    have := LastIndex_char_append '}' (pre ++ '{' :: mid) post hpost
    simpa [List.append_assoc] using this
  have hS : slice (pre ++ '{' :: (mid ++ '}' :: post)) (pre.length : Int)
      (((pre ++ '{' :: mid).length : Int) + 1) = some ('{' :: (mid ++ ['}'])) := by
    have := slice_middle pre ('{' :: (mid ++ ['}'])) post
    have e : ((pre.length : Int) + (('{' :: (mid ++ ['}'])).length : Int))
        = (((pre ++ '{' :: mid).length : Int) + 1) := by
      simp only [List.length_append, List.length_cons, List.length_nil, Nat.cast_add,
        Nat.cast_one]
      omega
    rw [e] at this
    simpa [List.append_assoc] using this
  unfold extractJSON
  simp only [hI, hL]
  rw [if_neg (by omega), hS]
  simp only [TrimSpace_braces]
  rw [TrimPrefix_brace _ _ (by decide), TrimPrefix_brace _ _ (by decide), TrimSpace_braces]

theorem brace_decomp (text : GoString) (i j : Int)
    (hi : Index text ['{'] = i) (hj : LastIndex text ['}'] = j)
    (h0 : 0 ≤ i) (hij : i ≤ j) :
    ∃ pre mid post, text = pre ++ '{' :: (mid ++ '}' :: post) ∧ '{' ∉ pre ∧ '}' ∉ post ∧
      i = (pre.length : Int) ∧ j = (pre.length : Int) + 1 + (mid.length : Int) := by
  have hm1 : '{' ∈ text := by
    by_contra hn
    rw [Index_char_not_mem _ _ hn] at hi
    omega
  have hm2 : '}' ∈ text := by
    by_contra hn
    rw [LastIndex_char_not_mem _ _ hn] at hj
    omega
  obtain ⟨pre, rest, e1, hpre⟩ := split_first _ _ hm1
  obtain ⟨xs, post, e2, hpost⟩ := split_last _ _ hm2
  have hi2 : i = (pre.length : Int) := by
    rw [← hi, e1]; exact Index_char_append _ _ _ hpre
  have hj2 : j = (xs.length : Int) := by
    rw [← hj, e2]; exact LastIndex_char_append _ _ _ hpost
  have hlen : pre.length ≤ xs.length := by omega
  have e3 : pre ++ '{' :: rest = xs ++ '}' :: post := by rw [← e1, ← e2]
  rcases List.append_eq_append_iff.1 e3 with ⟨a, ha1, ha2⟩ | ⟨c, hc1, hc2⟩
  · cases a with
    | nil =>
      simp only [List.nil_append, List.cons.injEq] at ha2
      exact absurd ha2.1 (by decide)
    | cons y ys =>
      simp only [List.cons_append, List.cons.injEq] at ha2
      refine ⟨pre, ys, post, ?_, hpre, hpost, hi2, ?_⟩
      · rw [e1, ha2.2]
      · rw [hj2, ha1]
        simp only [List.length_append, List.length_cons, Nat.cast_add, Nat.cast_one]
        omega
  · have hc : c = [] := by
      have : pre.length = xs.length + c.length := by rw [hc1]; simp
      apply List.eq_nil_of_length_eq_zero
      omega
    subst hc
    simp only [List.nil_append, List.cons.injEq] at hc2
    exact absurd hc2.1 (by decide)

/-! ## Facts about `cleanAnalysis` -/

theorem setGet_setPut (m : List (GoString × Bool)) (k x : GoString) (b : Bool) :
    setGet (setPut m k b) x = if k = x then b else setGet m x := by
  induction m with
  | nil => simp [setPut, setGet]
  | cons e rest ih =>
    obtain ⟨k', c⟩ := e
    by_cases h1 : k' = k
    · subst h1
      by_cases h2 : k' = x <;> simp [setPut, setGet, h2]
    · by_cases h2 : k' = x
      · subst h2
        have h3 : ¬ k = k' := fun e => h1 e.symm
        simp [setPut, setGet, h1, h3]
      · simp [setPut, setGet, h1, h2, ih]

theorem actionLoop_eq_keepScan (xs : List GoString) (st : ActionLoop)
    (hinv : ∀ x, setGet st.actionSet x = true ↔ x ∈ st.cleanedActions) :
    (xs.foldl actionStep st).cleanedActions = keepScan st.cleanedActions xs := by
  induction xs generalizing st with
  | nil => simp [keepScan]
  | cons x xs ih =>
    simp only [List.foldl_cons, keepScan]
    by_cases hk : isGenericAction x = false ∧ x ∉ st.cleanedActions
    · have hs : setGet st.actionSet x = false := by
        cases hv : setGet st.actionSet x with
        | false => rfl
        | true => exact absurd ((hinv x).1 hv) hk.2
      have hstep : actionStep st x =
          { cleanedActions := st.cleanedActions ++ [x],
            actionSet := setPut st.actionSet x true } := by
        simp [actionStep, hk.1, hs]
      rw [if_pos hk, hstep]
      apply ih
      intro y
      simp only [setGet_setPut, List.mem_append, List.mem_singleton]
      by_cases hxy : x = y
      · simp [hxy]
      · have hyx : ¬ y = x := fun e => hxy e.symm
        simp [hxy, hyx, hinv y]
    · have hstep : actionStep st x = st := by
        unfold actionStep
        split
        · rename_i hc
          simp only [Bool.and_eq_true, Bool.not_eq_true'] at hc
          exfalso
          apply hk
          refine ⟨hc.1, ?_⟩
          intro hm
          have := (hinv x).2 hm
          rw [hc.2] at this
          exact Bool.noConfusion this
        · rfl
      rw [if_neg hk, hstep]
      exact ih st hinv

theorem cleanAnalysis_Actions_eq (a : AnalysisResult) (input : GoString) :
    (cleanAnalysis a input).Actions = (keepScan [] a.Actions).take 2 := by
  have h := actionLoop_eq_keepScan a.Actions { cleanedActions := [], actionSet := [] }
    (by intro x; simp [setGet])
  simp only [cleanAnalysis, h]
  split
  · rfl
  · rename_i hlen
    rw [List.take_of_length_le (by omega)]

theorem keepScan_shape (xs kept : List GoString) :
    ∃ ys, keepScan kept xs = kept ++ ys ∧ List.Sublist ys xs ∧ ys.Nodup ∧
      ∀ y ∈ ys, isGenericAction y = false ∧ y ∉ kept := by
  induction xs generalizing kept with
  | nil => exact ⟨[], by simp [keepScan]⟩
  | cons x xs ih =>
    simp only [keepScan]
    by_cases hk : isGenericAction x = false ∧ x ∉ kept
    · rw [if_pos hk]
      obtain ⟨ys, e, hsub, hnd, hall⟩ := ih (kept ++ [x])
      refine ⟨x :: ys, by simp [e], hsub.cons₂ x, ?_, ?_⟩
      · refine List.nodup_cons.2 ⟨?_, hnd⟩
        intro hm
        exact (hall x hm).2 (by simp)
      · intro y hy
        rcases List.mem_cons.1 hy with e2 | e2
        · subst e2; exact hk
        · exact ⟨(hall y e2).1, fun hm => (hall y e2).2 (by simp [hm])⟩
    · rw [if_neg hk]
      obtain ⟨ys, e, hsub, hnd, hall⟩ := ih kept
      exact ⟨ys, e, hsub.cons x, hnd, hall⟩

theorem keepScan_fixed (ys kept : List GoString) (hnd : ys.Nodup)
    (hall : ∀ y ∈ ys, isGenericAction y = false ∧ y ∉ kept) :
    keepScan kept ys = kept ++ ys := by
  induction ys generalizing kept with
  | nil => simp [keepScan]
  | cons y ys ih =>
    have hy := hall y (by simp)
    obtain ⟨hny, hnd2⟩ := List.nodup_cons.1 hnd
    simp only [keepScan]
    rw [if_pos hy, ih (kept ++ [y]) hnd2]
    · simp
    · intro z hz
      refine ⟨(hall z (by simp [hz])).1, ?_⟩
      intro hm
      rcases List.mem_append.1 hm with h1 | h1
      · exact (hall z (by simp [hz])).2 h1
      · simp only [List.mem_singleton] at h1
        subst h1
        exact hny hz

theorem isGenericAction_eq_false_iff (x : GoString) :
    isGenericAction x = false ↔
      ¬ "have".toList <:+: x ∧ ¬ "want".toList <:+: x ∧ ¬ "tell".toList <:+: x ∧
      ¬ "need".toList <:+: x ∧ ¬ "you to".toList <:+: x := by
  simp only [isGenericAction, genericTerms, List.any_cons, List.any_nil, Bool.or_false,
    Bool.or_eq_false_iff, ← Contains_iff, Bool.not_eq_true]

theorem mapGet_mapSet_same (m : GoMap) (k : GoString) (v : Value) :
    mapGet (mapSet m k v) k = some v := by
  induction m with
  | nil => simp [mapSet, mapGet]
  | cons e rest ih =>
    obtain ⟨k', w⟩ := e
    by_cases h : k' = k
    · simp [mapSet, mapGet, h]
    · simp [mapSet, mapGet, h, ih]

theorem mapGet_mapSet_other (m : GoMap) (k k' : GoString) (v : Value) (hk : k' ≠ k) :
    mapGet (mapSet m k v) k' = mapGet m k' := by
  induction m with
  | nil =>
    have : ¬ k = k' := fun e => hk e.symm
    simp [mapSet, mapGet, this]
  | cons e rest ih =>
    obtain ⟨k0, w⟩ := e
    by_cases h : k0 = k
    · subst h
      have : ¬ k0 = k' := fun e => hk e.symm
      simp [mapSet, mapGet, this]
    · by_cases h2 : k0 = k'
      · subst h2
        simp [mapSet, mapGet, h]
      · simp [mapSet, mapGet, h, h2, ih]

theorem inferDepartment_values (input : GoString) :
    inferDepartment input = [] ∨
      ((inferDepartment input == []) = false ∧
        Contains (inferDepartment input) "unspecified".toList = false) := by
  unfold inferDepartment
  simp only []
  split
  · right; decide
  · split
    · right; decide
    · split
      · right; decide
      · split
        · right; decide
        · split
          · right; decide
          · left; rfl

theorem needsDepartment_iff (m : GoMap) : needsDepartment m = true ↔ departmentBlank m := by
  unfold needsDepartment departmentBlank
  cases h : mapGet m "department".toList with
  | none => simp
  | some v =>
    cases v with
    | str d =>
      simp only [Bool.or_eq_true, beq_iff_eq, Contains_iff, reduceCtorEq, Option.some.injEq,
        Value.str.injEq, false_or]
      constructor
      · rintro (h1 | h1)
        · right; left; exact h1
        · right; right; exact ⟨d, rfl, h1⟩
      · rintro (⟨v, hv, hs⟩ | h1 | ⟨s, hs, h1⟩)
        · exact absurd hv.symm (hs d)
        · left; exact h1
        · right; rw [hs]; exact h1
    | null => simp
    | bool b => simp
    | number n => simp
    | array xs => simp
    | object fs => simp

theorem cleanEntity_object (input : GoString) (m : GoMap) :
    cleanEntity input (Value.object m) =
      Value.object (if needsDepartment m = true ∧ inferDepartment input ≠ [] then
        mapSet m "department".toList (Value.str (inferDepartment input)) else m) := by
  unfold cleanEntity
  by_cases h1 : needsDepartment m = true
  · by_cases h2 : inferDepartment input = [] <;> simp [h1, h2]
  · simp [h1]

theorem cleanEntity_not_object (input : GoString) (v : Value)
    (hv : ∀ m, v ≠ Value.object m) : cleanEntity input v = v := by
  cases v with
  | object fs => exact absurd rfl (hv fs)
  | null => rfl
  | bool b => rfl
  | number n => rfl
  | str d => rfl
  | array xs => rfl

theorem cleanEntity_idem (input : GoString) (v : Value) :
    cleanEntity input (cleanEntity input v) = cleanEntity input v := by
  by_cases hv : ∃ m, v = Value.object m
  · obtain ⟨m, rfl⟩ := hv
    rw [cleanEntity_object]
    by_cases hc : needsDepartment m = true ∧ inferDepartment input ≠ []
    · rw [if_pos hc, cleanEntity_object]
      have hn : needsDepartment (mapSet m "department".toList
          (Value.str (inferDepartment input))) = false := by
        unfold needsDepartment
        rw [mapGet_mapSet_same]
        rcases inferDepartment_values input with h | ⟨h1, h2⟩
        · exact absurd h hc.2
        · show ((inferDepartment input == []) ||
              Contains (inferDepartment input) "unspecified".toList) = false
          rw [h1, h2]
          rfl
      rw [if_neg]
      intro h
      rw [hn] at h
      exact Bool.noConfusion h.1
    · rw [if_neg hc, cleanEntity_object, if_neg hc]
  · have hv2 : ∀ m, v ≠ Value.object m := fun m e => hv ⟨m, e⟩
    rw [cleanEntity_not_object input v hv2, cleanEntity_not_object input v hv2]

theorem cleanAnalysis_entity_at (a : AnalysisResult) (input : GoString) (i : Nat)
    (key : GoString) (v : Value) (h : a.ResolvedEntities[i]? = some (key, v)) :
    (cleanAnalysis a input).ResolvedEntities[i]? = some (key, cleanEntity input v) := by
  simp [cleanAnalysis, List.getElem?_map, h]

theorem cleanAnalysis_Instructions_eq (a : AnalysisResult) (input : GoString) :
    (cleanAnalysis a input).Instructions = a.Instructions.take 1 := by
  unfold cleanAnalysis
  cases h : a.Instructions <;> simp

theorem cleanAnalysis_Actions_props (a : AnalysisResult) (input : GoString) :
    (cleanAnalysis a input).Actions.Nodup ∧
    (∀ x ∈ (cleanAnalysis a input).Actions, isGenericAction x = false) ∧
    List.Sublist (cleanAnalysis a input).Actions a.Actions := by
  rw [cleanAnalysis_Actions_eq]
  obtain ⟨ys, e, hsub, hnd, hall⟩ := keepScan_shape a.Actions []
  rw [e, List.nil_append]
  refine ⟨hnd.sublist (List.take_sublist 2 ys), ?_, (List.take_sublist 2 ys).trans hsub⟩
  intro x hx
  exact (hall x (List.mem_of_mem_take hx)).1

theorem LastIndex_char_bounds (c : Char) (s : GoString) :
    LastIndex s [c] = -1 ∨ (0 ≤ LastIndex s [c] ∧ LastIndex s [c] + 1 ≤ (s.length : Int)) := by
  by_cases h : c ∈ s
  · obtain ⟨pre, post, e, hp⟩ := split_last c s h
    right
    subst e
    rw [LastIndex_char_append c pre post hp]
    simp only [List.length_append, List.length_cons, Nat.cast_add, Nat.cast_one]
    omega
  · left; exact LastIndex_char_not_mem c s h

theorem extractJSON_eq_none_iff (text : GoString) :
    extractJSON text = none ↔
      Index text ['{'] ≠ -1 ∧ LastIndex text ['}'] ≠ -1 ∧
        LastIndex text ['}'] + 1 < Index text ['{'] := by
  unfold extractJSON
  simp only []
  by_cases h : Index text ['{'] = -1 ∨ LastIndex text ['}'] = -1
  · rw [if_pos h]
    constructor
    · intro h2; exact absurd h2 (by simp)
    · rintro ⟨h1, h2, _⟩
      rcases h with h | h
      · exact absurd h h1
      · exact absurd h h2
  · rw [if_neg h]
    have h1 : Index text ['{'] ≠ -1 := fun e => h (Or.inl e)
    have h2 : LastIndex text ['}'] ≠ -1 := fun e => h (Or.inr e)
    have b1 : 0 ≤ Index text ['{'] := by
      rcases Index_ge_neg_one text ['{'] with e | e
      · exact absurd e h1
      · exact e
    have b2 := (LastIndex_char_bounds '}' text).resolve_left h2
    unfold slice
    by_cases hc : 0 ≤ Index text ['{'] ∧ Index text ['{'] ≤ LastIndex text ['}'] + 1 ∧
        LastIndex text ['}'] + 1 ≤ (text.length : Int)
    · rw [if_pos hc]
      simp only [reduceCtorEq, false_iff, not_and, not_lt]
      intro _ _
      exact hc.2.1
    · rw [if_neg hc]
      simp only [true_iff]
      refine ⟨h1, h2, ?_⟩
      by_contra hlt
      exact hc ⟨b1, by omega, b2.2⟩

theorem toLowerRune_idem (c : Char) : toLowerRune (toLowerRune c) = toLowerRune c := by
  by_cases h : 65 ≤ c.toNat ∧ c.toNat ≤ 90
  · have e : toLowerRune c = Char.ofNat (c.toNat + 32) := by simp [toLowerRune, h]
    rw [e]
    obtain ⟨h1, h2⟩ := h
    generalize c.toNat = n at h1 h2
    interval_cases n <;> decide
  · by_cases h2 : c.toNat = 0x130
    · have e : toLowerRune c = Char.ofNat 105 := by
        unfold toLowerRune
        rw [if_neg h, if_pos h2]
      rw [e]
      decide
    · by_cases h3 : c.toNat = 0x212A
      · have e : toLowerRune c = Char.ofNat 107 := by
          unfold toLowerRune
          rw [if_neg h, if_neg h2, if_pos h3]
        rw [e]
        decide
      · have e : toLowerRune c = c := by
          unfold toLowerRune
          rw [if_neg h, if_neg h2, if_neg h3]
        rw [e, e]

theorem ToLower_idem (s : GoString) : ToLower (ToLower s) = ToLower s := by
  unfold ToLower
  rw [List.map_map]
  apply List.map_congr_left
  intro c _
  exact toLowerRune_idem c

/-! ## The claims -/

/-- C1: the actions of `cleanAnalysis` are the first two elements of the scan
that keeps an action iff it is not generic and not already kept; so there are
at most 2 of them, without duplicates, none contains one of the generic terms
"have", "want", "tell", "need", "you to" (case-sensitive substrings), and they
stand in their original relative order. -/
theorem cleanAnalysis_actions (a : AnalysisResult) (input : GoString) :
    (cleanAnalysis a input).Actions = (keepScan [] a.Actions).take 2 ∧
    (cleanAnalysis a input).Actions.length ≤ 2 ∧
    (cleanAnalysis a input).Actions.Nodup ∧
    (∀ x ∈ (cleanAnalysis a input).Actions,
      isGenericAction x = false ∧
      ¬ "have".toList <:+: x ∧ ¬ "want".toList <:+: x ∧ ¬ "tell".toList <:+: x ∧
      ¬ "need".toList <:+: x ∧ ¬ "you to".toList <:+: x) ∧
    List.Sublist (cleanAnalysis a input).Actions a.Actions ∧
    (∀ x, isGenericAction x = false ↔
      ¬ "have".toList <:+: x ∧ ¬ "want".toList <:+: x ∧ ¬ "tell".toList <:+: x ∧
      ¬ "need".toList <:+: x ∧ ¬ "you to".toList <:+: x) := by
  obtain ⟨hnd, hgen, hsub⟩ := cleanAnalysis_Actions_props a input
  refine ⟨cleanAnalysis_Actions_eq a input, ?_, hnd, ?_, hsub, isGenericAction_eq_false_iff⟩
  · rw [cleanAnalysis_Actions_eq, List.length_take]
    exact Nat.min_le_left _ _
  · intro x hx
    exact ⟨hgen x hx, (isGenericAction_eq_false_iff x).1 (hgen x hx)⟩

/-- C1 at the specification's example: of "I want to ship", "ship the report",
"ship the report", "need approval" only "ship the report" is left. -/
theorem cleanAnalysis_actions_witness :
    (cleanAnalysis
      { Instructions := [],
        Actions := ["I want to ship".toList, "ship the report".toList,
          "ship the report".toList, "need approval".toList],
        ResolvedEntities := [] } []).Actions = ["ship the report".toList] :=
  (cleanAnalysis_actions _ _).1.trans (by decide)

/-- C7: the instructions of `cleanAnalysis` are the first original instruction
alone when there is one and are empty otherwise; there is never more than one. -/
theorem cleanAnalysis_instructions (a : AnalysisResult) (input : GoString) :
    (a.Instructions = [] → (cleanAnalysis a input).Instructions = []) ∧
    (∀ first rest, a.Instructions = first :: rest →
      (cleanAnalysis a input).Instructions = [first]) ∧
    (cleanAnalysis a input).Instructions.length ≤ 1 := by
  rw [cleanAnalysis_Instructions_eq]
  refine ⟨?_, ?_, ?_⟩
  · intro h; rw [h]; rfl
  · intro first rest h; rw [h]; rfl
  · rw [List.length_take]
    exact Nat.min_le_left _ _

/-- C7 at the specification's example: "do X", "do Y" becomes "do X". -/
theorem cleanAnalysis_instructions_witness :
    (cleanAnalysis
      { Instructions := ["do X".toList, "do Y".toList],
        Actions := [],
        ResolvedEntities := [] } []).Instructions = ["do X".toList] :=
  (cleanAnalysis_instructions _ _).2.1 _ _ rfl

/-- C2: for an entity record (a map) of `resolved_entities`, when its
department is missing, not a string, empty or contains "unspecified", and
`inferDepartment input` is not empty, the record's department after
`cleanAnalysis` is `inferDepartment input`; in every other case the record,
and with it the department, is as it was. -/
theorem cleanAnalysis_department (a : AnalysisResult) (input : GoString) (i : Nat)
    (key : GoString) (entityMap : GoMap)
    (h : a.ResolvedEntities[i]? = some (key, Value.object entityMap)) :
    ∃ m', (cleanAnalysis a input).ResolvedEntities[i]? = some (key, Value.object m') ∧
      (departmentBlank entityMap ∧ inferDepartment input ≠ [] →
        mapGet m' "department".toList = some (Value.str (inferDepartment input))) ∧
      (¬ (departmentBlank entityMap ∧ inferDepartment input ≠ []) →
        m' = entityMap ∧
        mapGet m' "department".toList = mapGet entityMap "department".toList) := by
  refine ⟨_, (cleanAnalysis_entity_at a input i key _ h).trans
    (by rw [cleanEntity_object]), ?_, ?_⟩
  · intro hc
    rw [if_pos ⟨(needsDepartment_iff entityMap).2 hc.1, hc.2⟩, mapGet_mapSet_same]
  · intro hc
    have hc2 : ¬ (needsDepartment entityMap = true ∧ inferDepartment input ≠ []) :=
      fun hn => hc ⟨(needsDepartment_iff entityMap).1 hn.1, hn.2⟩
    rw [if_neg hc2]
    exact ⟨rfl, rfl⟩

/-- C2 at the specification's examples: an empty department becomes "Sales"
for "talk to the selling target about pricing", "Legal" stays "Legal" although
the input mentions sales, and an empty department becomes "Finance" for
"Alice needs to finish the finance report". -/
theorem cleanAnalysis_department_witness :
    (∃ m', (cleanAnalysis
        { Instructions := [], Actions := [],
          ResolvedEntities := [("Bob".toList,
            Value.object [("department".toList, Value.str [])])] }
        "talk to the selling target about pricing".toList).ResolvedEntities[0]?
          = some ("Bob".toList, Value.object m') ∧
      mapGet m' "department".toList = some (Value.str "Sales".toList)) ∧
    (∃ m', (cleanAnalysis
        { Instructions := [], Actions := [],
          ResolvedEntities := [("Bob".toList,
            Value.object [("department".toList, Value.str "Legal".toList)])] }
        "ask the sales team".toList).ResolvedEntities[0]?
          = some ("Bob".toList, Value.object m') ∧
      m' = [("department".toList, Value.str "Legal".toList)]) ∧
    (∃ m', (cleanAnalysis
        { Instructions := ["ship report".toList],
          Actions := ["draft report".toList, "send report".toList, "have report".toList],
          ResolvedEntities := [("Alice".toList,
            Value.object [("name".toList, Value.str "Alice".toList),
              ("department".toList, Value.str []),
              ("position".toList, Value.str "Analyst".toList),
              ("traits".toList, Value.array [Value.str "detail-oriented".toList])])] }
        "Alice needs to finish the finance report".toList).ResolvedEntities[0]?
          = some ("Alice".toList, Value.object m') ∧
      mapGet m' "department".toList = some (Value.str "Finance".toList)) := by
  refine ⟨?_, ?_, ?_⟩
  · obtain ⟨m', h1, h2, _⟩ := cleanAnalysis_department
      { Instructions := [], Actions := [],
        ResolvedEntities := [("Bob".toList,
          Value.object [("department".toList, Value.str [])])] }
      "talk to the selling target about pricing".toList 0 _ _ rfl
    refine ⟨m', h1, ?_⟩
    rw [h2 ⟨Or.inr (Or.inr (Or.inl rfl)), by decide⟩]
    exact congrArg (fun d => some (Value.str d)) (by decide)
  · obtain ⟨m', h1, _, h3⟩ := cleanAnalysis_department
      { Instructions := [], Actions := [],
        ResolvedEntities := [("Bob".toList,
          Value.object [("department".toList, Value.str "Legal".toList)])] }
      "ask the sales team".toList 0 _ _ rfl
    refine ⟨m', h1, (h3 ?_).1⟩
    rintro ⟨hb, _⟩
    have hn := (needsDepartment_iff _).2 hb
    exact absurd hn (by decide)
  · obtain ⟨m', h1, h2, _⟩ := cleanAnalysis_department
      { Instructions := ["ship report".toList],
        Actions := ["draft report".toList, "send report".toList, "have report".toList],
        ResolvedEntities := [("Alice".toList,
          Value.object [("name".toList, Value.str "Alice".toList),
            ("department".toList, Value.str []),
            ("position".toList, Value.str "Analyst".toList),
            ("traits".toList, Value.array [Value.str "detail-oriented".toList])])] }
      "Alice needs to finish the finance report".toList 0 _ _ rfl
    refine ⟨m', h1, ?_⟩
    rw [h2 ⟨Or.inr (Or.inr (Or.inl rfl)), by decide⟩]
    exact congrArg (fun d => some (Value.str d)) (by decide)

/-- C8: `cleanAnalysis` keeps the entity keys, in place; an entity value that
is not a map comes back unchanged; and in an entity map every key other than
"department" reads exactly as before, so no other key is added or changed. -/
theorem cleanAnalysis_entities_frame (a : AnalysisResult) (input : GoString) :
    (cleanAnalysis a input).ResolvedEntities.map Prod.fst
      = a.ResolvedEntities.map Prod.fst ∧
    (∀ (i : Nat) (key : GoString) (v : Value), a.ResolvedEntities[i]? = some (key, v) → (∀ m, v ≠ Value.object m) →
      (cleanAnalysis a input).ResolvedEntities[i]? = some (key, v)) ∧
    (∀ (i : Nat) (key : GoString) (m : GoMap), a.ResolvedEntities[i]? = some (key, Value.object m) →
      ∃ m', (cleanAnalysis a input).ResolvedEntities[i]? = some (key, Value.object m') ∧
        ∀ k, k ≠ "department".toList → mapGet m' k = mapGet m k) := by
  refine ⟨?_, ?_, ?_⟩
  · simp [cleanAnalysis, List.map_map, Function.comp_def]
  · intro i key v h hv
    rw [cleanAnalysis_entity_at a input i key v h, cleanEntity_not_object input v hv]
  · intro i key m h
    refine ⟨_, (cleanAnalysis_entity_at a input i key _ h).trans
      (by rw [cleanEntity_object]), ?_⟩
    intro k hk
    split
    · exact mapGet_mapSet_other m _ k _ hk
    · rfl

/-- C6: `cleanAnalysis` is idempotent: a second pass with the same input
changes none of the three fields. -/
theorem cleanAnalysis_idempotent (a : AnalysisResult) (input : GoString) :
    cleanAnalysis (cleanAnalysis a input) input = cleanAnalysis a input := by
  have h1 : (cleanAnalysis (cleanAnalysis a input) input).Instructions
      = (cleanAnalysis a input).Instructions := by
    rw [cleanAnalysis_Instructions_eq, cleanAnalysis_Instructions_eq, List.take_take]
    simp
  have h2 : (cleanAnalysis (cleanAnalysis a input) input).Actions
      = (cleanAnalysis a input).Actions := by
    obtain ⟨hnd, hgen, _⟩ := cleanAnalysis_Actions_props a input
    have hlen : (cleanAnalysis a input).Actions.length ≤ 2 := by
      rw [cleanAnalysis_Actions_eq, List.length_take]
      exact Nat.min_le_left _ _
    rw [cleanAnalysis_Actions_eq (cleanAnalysis a input) input,
      keepScan_fixed _ [] hnd (fun y hy => ⟨hgen y hy, by simp⟩), List.nil_append,
      List.take_of_length_le hlen]
  have h3 : (cleanAnalysis (cleanAnalysis a input) input).ResolvedEntities
      = (cleanAnalysis a input).ResolvedEntities := by
    show ((cleanAnalysis a input).ResolvedEntities.map _) = _
    show ((a.ResolvedEntities.map _).map _) = a.ResolvedEntities.map _
    rw [List.map_map]
    apply List.map_congr_left
    intro e _
    simp only [Function.comp_apply]
    rw [cleanEntity_idem]
  cases hA : cleanAnalysis (cleanAnalysis a input) input
  cases hB : cleanAnalysis a input
  rw [hA, hB] at h1 h2 h3
  simp only at h1 h2 h3
  rw [h1, h2, h3]

/-- C3: `inferDepartment` applies the ordered rule table to the lowercased
input, first match winning: "selling" or "sales" gives "Sales", else "market"
gives "Marketing", else "engineer" or "technical" gives "Engineering", else
"finance" or "accounting" gives "Finance", else "customer" gives
"Customer Support", else the empty string.  Inputs that agree after
lowercasing get the same department, and lowercasing the input changes
nothing. -/
theorem inferDepartment_rule_table (input : GoString) :
    inferDepartment input = firstMatch departmentRules (ToLower input) ∧
    inferDepartment input =
      (if "selling".toList <:+: ToLower input ∨ "sales".toList <:+: ToLower input then
        "Sales".toList
      else if "market".toList <:+: ToLower input then "Marketing".toList
      else if "engineer".toList <:+: ToLower input ∨ "technical".toList <:+: ToLower input then
        "Engineering".toList
      else if "finance".toList <:+: ToLower input ∨ "accounting".toList <:+: ToLower input then
        "Finance".toList
      else if "customer".toList <:+: ToLower input then "Customer Support".toList
      else []) ∧
    inferDepartment (ToLower input) = inferDepartment input ∧
    (∀ other, ToLower other = ToLower input →
      inferDepartment other = inferDepartment input) ∧
    inferDepartment "Ask SALES about the customer".toList = "Sales".toList ∧
    inferDepartment "the Marketing engineer".toList = "Marketing".toList ∧
    inferDepartment "nothing to see".toList = [] := by
  refine ⟨?_, ?_, ?_, ?_, by decide, by decide, by decide⟩
  · simp only [inferDepartment, firstMatch, departmentRules, Bool.or_eq_true, Contains_iff,
      List.mem_cons, List.mem_singleton, List.not_mem_nil, or_false, exists_eq_or_imp,
      exists_eq_left]
  · simp only [inferDepartment, Bool.or_eq_true, Contains_iff]
  · simp only [inferDepartment, ToLower_idem]
  · intro other h
    simp only [inferDepartment, h]

/-- C5: a text without '{' or without '}' makes `extractJSON` return the empty
string, and `getCommandAnalysis` then returns the error
"no valid JSON found in response". -/
theorem extractJSON_no_brace (text : GoString) (h : '{' ∉ text ∨ '}' ∉ text) :
    extractJSON text = some [] ∧
    ∀ (unmarshal : GoString → Except GoString AnalysisResult) (input : GoString),
      getCommandAnalysis unmarshal text input
        = some (Except.error "no valid JSON found in response".toList) := by
  have e : extractJSON text = some [] := by
    unfold extractJSON
    simp only []
    rw [if_pos]
    rcases h with h | h
    · exact Or.inl (Index_char_not_mem _ _ h)
    · exact Or.inr (LastIndex_char_not_mem _ _ h)
  refine ⟨e, ?_⟩
  intro unmarshal input
  unfold getCommandAnalysis
  rw [e]
  rfl

/-- C5 at the specification's example "no braces here". -/
theorem extractJSON_no_brace_witness :
    extractJSON "no braces here".toList = some [] ∧
    ∀ (unmarshal : GoString → Except GoString AnalysisResult) (input : GoString),
      getCommandAnalysis unmarshal "no braces here".toList input
        = some (Except.error "no valid JSON found in response".toList) :=
  extractJSON_no_brace "no braces here".toList (by decide)

/-- The fenced form of a model response: when the payload opens with '{' and
closes with '}', nothing before it holds a '{' and nothing after it holds a
'}', `extractJSON` returns the payload. -/
theorem extractJSON_fenced (noise fence mid fence2 trailing : GoString)
    (h1 : '{' ∉ noise ++ fence) (h2 : '}' ∉ fence2 ++ trailing) :
    extractJSON (noise ++ fence ++ ('{' :: (mid ++ ['}'])) ++ fence2 ++ trailing)
      = some ('{' :: (mid ++ ['}'])) := by
  have e : noise ++ fence ++ ('{' :: (mid ++ ['}'])) ++ fence2 ++ trailing
      = (noise ++ fence) ++ '{' :: (mid ++ '}' :: (fence2 ++ trailing)) := by
    simp [List.append_assoc]
  rw [e]
  exact extractJSON_sandwich _ _ _ h1 h2

/-- C10: when the first '{' is at offset `i`, the last '}' at offset `j` and
`i ≤ j`, `extractJSON` returns the raw slice from `i` to `j` inclusive: it is
not empty, opens with '{', closes with '}', and neither the trimming nor the
stripping of a code-fence marker changes it. -/
theorem extractJSON_raw_slice (text : GoString) (i j : Int)
    (hi : Index text ['{'] = i) (hj : LastIndex text ['}'] = j)
    (h0 : 0 ≤ i) (hij : i ≤ j) :
    ∃ raw, raw = (text.drop i.toNat).take (j.toNat - i.toNat + 1) ∧
      slice text i (j + 1) = some raw ∧
      extractJSON text = some raw ∧
      raw ≠ [] ∧ raw.head? = some '{' ∧ raw.getLast? = some '}' ∧
      TrimSpace raw = raw ∧
      TrimPrefix raw "```json".toList = raw ∧
      TrimPrefix raw "```".toList = raw := by
  obtain ⟨pre, mid, post, e, hpre, hpost, ei, ej⟩ := brace_decomp text i j hi hj h0 hij
  subst e
  have hS : slice (pre ++ '{' :: (mid ++ '}' :: post)) i (j + 1)
      = some ('{' :: (mid ++ ['}'])) := by
    have := slice_middle pre ('{' :: (mid ++ ['}'])) post
    have e2 : ((pre.length : Int) + (('{' :: (mid ++ ['}'])).length : Int)) = j + 1 := by
      simp only [List.length_append, List.length_cons, List.length_nil, Nat.cast_add,
        Nat.cast_one]
      omega
    rw [e2, ← ei] at this
    simpa [List.append_assoc] using this
  refine ⟨'{' :: (mid ++ ['}']), ?_, hS, extractJSON_sandwich pre mid post hpre hpost,
    by simp, by simp, ?_, TrimSpace_braces mid, TrimPrefix_brace _ _ (by decide),
    TrimPrefix_brace _ _ (by decide)⟩
  · have hn1 : i.toNat = pre.length := by omega
    have hn2 : j.toNat - i.toNat + 1 = ('{' :: (mid ++ ['}'])).length := by
      simp only [List.length_append, List.length_cons, List.length_nil]
      omega
    rw [hn2, hn1, List.drop_left]
    have e3 : '{' :: (mid ++ '}' :: post) = ('{' :: (mid ++ ['}'])) ++ post := by simp
    rw [e3, List.take_left]
  · rw [← List.cons_append, List.getLast?_append]
    simp

/-- C10 at the specification's example: the first '{' is at offset 14 and the
last '}' at offset 20. -/
theorem extractJSON_raw_slice_witness :
    ∃ raw, raw = (("noise ```json \x7b\"a\":1\x7d ``` trailing".toList).drop
          (14 : Int).toNat).take ((20 : Int).toNat - (14 : Int).toNat + 1) ∧
      slice "noise ```json \x7b\"a\":1\x7d ``` trailing".toList 14 (20 + 1) = some raw ∧
      extractJSON "noise ```json \x7b\"a\":1\x7d ``` trailing".toList = some raw ∧
      raw ≠ [] ∧ raw.head? = some '{' ∧ raw.getLast? = some '}' ∧
      TrimSpace raw = raw ∧
      TrimPrefix raw "```json".toList = raw ∧
      TrimPrefix raw "```".toList = raw :=
  extractJSON_raw_slice "noise ```json \x7b\"a\":1\x7d ``` trailing".toList 14 20
    (by decide) (by decide) (by decide) (by decide)

/-- C4 at the input "} {", which holds both braces: the first '{' is at offset
2 and the last '}' at offset 0, the slice expression `text[2:1]` is out of
bounds and `extractJSON` panics instead of returning a string. -/
theorem extractJSON_reversed_braces :
    '{' ∈ "\x7d \x7b".toList ∧ '}' ∈ "\x7d \x7b".toList ∧
    Index "\x7d \x7b".toList ['{'] = 2 ∧ LastIndex "\x7d \x7b".toList ['}'] = 0 ∧
    slice "\x7d \x7b".toList 2 (0 + 1) = none ∧
    extractJSON "\x7d \x7b".toList = none := by
  decide

/-- C9: `extractJSON` is not total. It panics exactly when both braces occur
and the last '}' stands more than one place before the first '{'; on the
response "} {" it panics, and the panic goes through `getCommandAnalysis`
whatever the JSON decoder and the command are. -/
theorem extractJSON_not_total :
    (∀ text, extractJSON text = none ↔
      Index text ['{'] ≠ -1 ∧ LastIndex text ['}'] ≠ -1 ∧
        LastIndex text ['}'] + 1 < Index text ['{']) ∧
    ¬ (∀ text, ∃ out, extractJSON text = some out) ∧
    (∀ (unmarshal : GoString → Except GoString AnalysisResult) (input : GoString),
      getCommandAnalysis unmarshal "\x7d \x7b".toList input = none) := by
  have hp : extractJSON "\x7d \x7b".toList = none := by decide
  refine ⟨extractJSON_eq_none_iff, ?_, ?_⟩
  · intro h
    obtain ⟨out, ho⟩ := h "\x7d \x7b".toList
    rw [hp] at ho
    exact Option.noConfusion ho
  · intro unmarshal input
    unfold getCommandAnalysis
    rw [hp]

end CommandBot
